import Mathlib

/-!
Verification of the baseline-tracking change-detection engine of a
prediction-market price-alert program.

The embedding models the Python sources:
  * `models/market.py`    — the `Market` dataclass,
  * `models/alert.py`     — the `PriceAlert` dataclass,
  * `services/price_monitor.py` — the `PriceMonitor` engine,
  * `api/polymarket.py`   — only the part of `refresh_market_prices` that
    touches engine-owned `Market` records (the HTTP fetch is abstracted as a
    function from a market slug to the optional list of freshly parsed
    prices, mirroring the `all_market_data` dictionary built there).

Modelling conventions:
  * Python floats are modelled as rationals (`ℚ`); the claims are about the
    exact arithmetic formulas, not IEEE rounding.
  * `datetime.now()` is modelled by threading an explicit `now : Nat`.
  * Python object references held by alerts and by candidate tuples are
    modelled as indices into the engine's market list.
  * Python list indexing `xs[i]` may raise `IndexError`; every such access
    is modelled with `xs[i]?`, and any operation containing one returns
    `Option` — `none` models an uncaught `IndexError`.
  * In-place mutation is modelled by explicit state passing: an operation
    that mutates in Python returns the updated record / engine state.
-/

namespace PriceAlertModel

/-- One tracked prediction market (`models/market.py`, dataclass `Market`).
The display-only URL fields (`market_url`, `event_slug`) are omitted; no
claim mentions them and `__post_init__` only derives them for display. -/
structure Market where
  token_id : String
  condition_id : String
  question : String
  slug : String
  volume : ℚ
  outcomes : List String
  outcome_prices : List ℚ
  baseline_prices : List ℚ
  last_updated : Nat
  deriving Repr, DecidableEq

/-- `Market.__post_init__`: if no baseline was supplied, copy the current
prices into the baseline. -/
def postInit (m : Market) : Market :=
  if m.baseline_prices = [] then { m with baseline_prices := m.outcome_prices } else m

/-- Construction as done by `PolymarketClient._parse_market`: the dataclass
constructor is called without `baseline_prices` (so it defaults to `[]`) and
`__post_init__` then copies the parsed prices into the baseline. -/
def mkMarket (token_id condition_id question slug : String) (volume : ℚ)
    (outcomes : List String) (outcome_prices : List ℚ) (now : Nat) : Market :=
  postInit
    { token_id := token_id, condition_id := condition_id, question := question,
      slug := slug, volume := volume, outcomes := outcomes,
      outcome_prices := outcome_prices, baseline_prices := [], last_updated := now }

/-- `Market.update_prices`: overwrite current prices, refresh timestamp. -/
def Market.update_prices (m : Market) (new_prices : List ℚ) (now : Nat) : Market :=
  { m with outcome_prices := new_prices, last_updated := now }

/-- `Market.reset_baseline`: overwrite the baseline with the current prices. -/
def Market.reset_baseline (m : Market) : Market :=
  { m with baseline_prices := m.outcome_prices }

/-- `Market.get_price_changes`: percent change from baseline per outcome
index, iterating `zip(outcome_prices, baseline_prices)`; a non-positive
baseline yields `0.0`. -/
def Market.get_price_changes (m : Market) : List ℚ :=
  (m.outcome_prices.zip m.baseline_prices).map
    (fun p => if 0 < p.2 then ((p.1 - p.2) / p.2) * 100 else 0)

/-- One price alert (`models/alert.py`, dataclass `PriceAlert`).
`marketRef` models the Python object reference `alert.market` as an index
into the engine's market list. -/
structure PriceAlert where
  marketRef : Nat
  outcome_index : Nat
  outcome : String
  old_price : ℚ
  new_price : ℚ
  change_percent : ℚ
  timestamp : Nat
  deriving Repr, DecidableEq

/-- The engine state (`services/price_monitor.py`, class `PriceMonitor`). -/
structure PriceMonitor where
  threshold_percent : ℚ
  min_volume : ℚ
  markets : List Market
  initialized : Bool
  last_scan_time : Option Nat
  deriving Repr, DecidableEq

/-- `PriceMonitor.__init__`: empty market set, not yet initialized. -/
def PriceMonitor.mk0 (threshold_percent min_volume : ℚ) : PriceMonitor :=
  { threshold_percent := threshold_percent, min_volume := min_volume,
    markets := [], initialized := false, last_scan_time := none }

/-! ### Price refresh (`api/polymarket.py`, `refresh_market_prices`)

The batch HTTP fetch is abstracted as `fetch : String → Option (List ℚ)`:
`fetch slug = some ps` models `slug in all_market_data` with `ps` the
parsed `outcomePrices` (unparseable entries already replaced by `0.0`
during parsing, which is collaborator-internal); `none` models a slug
missing from the refreshed batch. -/

/-- Per-market body of the update loop in `refresh_market_prices`:
`if market.slug in all_market_data: ... if prices: market.update_prices(prices); updated += 1`.
Returns the (possibly updated) market and whether it counted as updated. -/
def refresh_one (fetch : String → Option (List ℚ)) (now : Nat) (m : Market) :
    Market × Bool :=
  match fetch m.slug with
  | some prices => if prices = [] then (m, false) else (m.update_prices prices now, true)
  | none => (m, false)

/-- `refresh_market_prices`: update every tracked market that the refreshed
batch matches by slug, returning the new market list and the update count. -/
def refresh_market_prices (fetch : String → Option (List ℚ)) (now : Nat) :
    List Market → List Market × Nat
  | [] => ([], 0)
  | m :: rest =>
    let r := refresh_one fetch now m
    let rest' := refresh_market_prices fetch now rest
    (r.1 :: rest'.1, (if r.2 then 1 else 0) + rest'.2)

/-! ### Detection (`PriceMonitor._check_market` / `check_for_alerts`) -/

/-- Loop body of `_check_market`:
`for i, (outcome, change) in enumerate(zip(market.outcomes, changes))`, and
when `abs(change) >= threshold` the alert construction indexes
`baseline_prices[i]` and `outcome_prices[i]` — modelled with `[i]?`, so a
would-be `IndexError` yields `none`. -/
def check_outcomes (thr : ℚ) (now ref : Nat) (bp op : List ℚ) :
    Nat → List (String × ℚ) → Option (List PriceAlert)
  | _, [] => some []
  | i, (outcome, change) :: rest =>
    if thr ≤ |change| then
      match bp[i]?, op[i]? with
      | some oldp, some newp =>
        (check_outcomes thr now ref bp op (i + 1) rest).map
          (fun tl => ⟨ref, i, outcome, oldp, newp, change, now⟩ :: tl)
      | _, _ => none
    else check_outcomes thr now ref bp op (i + 1) rest

/-- `PriceMonitor._check_market` for the market stored at index `ref`. -/
def check_market (thr : ℚ) (now ref : Nat) (m : Market) : Option (List PriceAlert) :=
  check_outcomes thr now ref m.baseline_prices m.outcome_prices 0
    (m.outcomes.zip m.get_price_changes)

/-- The accumulation loop of `check_for_alerts`:
`for market in self.markets: alerts.extend(self._check_market(market))`. -/
def check_all (thr : ℚ) (now : Nat) : Nat → List Market → Option (List PriceAlert)
  | _, [] => some []
  | j, m :: rest =>
    (check_market thr now j m).bind fun a =>
      (check_all thr now (j + 1) rest).map fun b => a ++ b

/-- `PriceMonitor.check_for_alerts`.  Output: the alert list, a Bool that is
`true` exactly when the "not initialized" warning was logged, and the
engine state after the call. -/
def check_for_alerts (fetch : String → Option (List ℚ)) (now : Nat)
    (st : PriceMonitor) : Option (List PriceAlert × Bool × PriceMonitor) :=
  if st.initialized then
    let r := refresh_market_prices fetch now st.markets
    match check_all st.threshold_percent now 0 r.1 with
    | some alerts =>
      some (alerts, false, { st with markets := r.1, last_scan_time := some now })
    | none => none
  else some ([], true, st)

/-! ### Baseline reset (`PriceMonitor.reset_baselines`) -/

/-- The loop of `reset_baselines` with its `processed_markets` set: an
alert's market reference is dereferenced (`alert.market`), de-duplicated by
`token_id`, and reset at most once. -/
def reset_baselines_aux : List PriceAlert → List String → List Market → Option (List Market)
  | [], _, ms => some ms
  | a :: rest, processed, ms =>
    match ms[a.marketRef]? with
    | none => none
    | some m =>
      if m.token_id ∈ processed then reset_baselines_aux rest processed ms
      else
        reset_baselines_aux rest (m.token_id :: processed)
          (ms.set a.marketRef m.reset_baseline)

/-- `PriceMonitor.reset_baselines` acting on the engine's market list. -/
def reset_baselines (alerts : List PriceAlert) (ms : List Market) : Option (List Market) :=
  reset_baselines_aux alerts [] ms

/-! ### Top movers (`PriceMonitor.get_top_movers`) -/

/-- One candidate tuple `(market, i, outcome, change)` of `get_top_movers`;
the market object is modelled by its index `ref`. -/
structure Mover where
  ref : Nat
  idx : Nat
  outcome : String
  change : ℚ
  deriving Repr, DecidableEq

/-- Candidate collection loop for one market:
`for i, (outcome, change) in enumerate(zip(market.outcomes, changes)): if market.baseline_prices[i] > 0: ...`.
The guard itself indexes `baseline_prices[i]`, modelled with `[i]?`. -/
def collect_movers_aux (j : Nat) (bp : List ℚ) :
    Nat → List (String × ℚ) → Option (List Mover)
  | _, [] => some []
  | i, (outcome, change) :: rest =>
    match bp[i]? with
    | none => none
    | some b =>
      (collect_movers_aux j bp (i + 1) rest).map
        (fun tl => if 0 < b then ⟨j, i, outcome, change⟩ :: tl else tl)

/-- Candidates of the market stored at index `j`. -/
def collect_movers (j : Nat) (m : Market) : Option (List Mover) :=
  collect_movers_aux j m.baseline_prices 0 (m.outcomes.zip m.get_price_changes)

/-- Candidate collection over all markets, in market order. -/
def collect_all_movers : Nat → List Market → Option (List Mover)
  | _, [] => some []
  | j, m :: rest =>
    (collect_movers j m).bind fun a =>
      (collect_all_movers (j + 1) rest).map fun b => a ++ b

/-- Stable insertion step for descending order by `key`: the element `a`
(which precedes the current list in the original order) goes before `b`
exactly when `key b ≤ key a`, so original order is kept on ties. -/
def insert_desc {α : Type} (key : α → ℚ) (a : α) : List α → List α
  | [] => [a]
  | b :: l => if key b ≤ key a then a :: b :: l else b :: insert_desc key a l

/-- Stable descending sort by `key`.  This models
`all_changes.sort(key=lambda x: abs(x[3]), reverse=True)`: CPython's sort
is stable, and with `reverse=True` equal-key elements still keep their
original relative order, which is exactly what this insertion sort does. -/
def sort_desc {α : Type} (key : α → ℚ) : List α → List α
  | [] => []
  | a :: l => insert_desc key a (sort_desc key l)

/-- Alert construction loop of `get_top_movers` over the sliced candidate
list; `market.baseline_prices[i]` and `market.outcome_prices[i]` are
modelled with `[i]?`. -/
def make_alerts (now : Nat) (ms : List Market) : List Mover → Option (List PriceAlert)
  | [] => some []
  | c :: rest =>
    match ms[c.ref]? with
    | none => none
    | some m =>
      match m.baseline_prices[c.idx]?, m.outcome_prices[c.idx]? with
      | some oldp, some newp =>
        (make_alerts now ms rest).map
          (fun tl => ⟨c.ref, c.idx, c.outcome, oldp, newp, c.change, now⟩ :: tl)
      | _, _ => none

/-- `PriceMonitor.get_top_movers`. -/
def get_top_movers (limit now : Nat) (st : PriceMonitor) : Option (List PriceAlert) :=
  (collect_all_movers 0 st.markets).bind fun cands =>
    make_alerts now st.markets ((sort_desc (fun c => |c.change|) cands).take limit)

/-! ### Bulk load (`PriceMonitor.initialize` / `refresh_markets`)

Both call `self.client.get_all_markets(min_volume=self.min_volume)`; that
bulk fetch is abstracted as the parameter `fetched` (the market list the
Data Source returned). -/

/-- `PriceMonitor.initialize`: replace the market set, stamp
`last_scan_time`, set the `initialized` flag, return the market count. -/
def PriceMonitor.init (fetched : List Market) (now : Nat) (st : PriceMonitor) :
    Nat × PriceMonitor :=
  (fetched.length,
    { st with markets := fetched, last_scan_time := some now, initialized := true })

/-- `PriceMonitor.refresh_markets`: replace the market set and return the
new count.  (The `existing_slugs`/`added_slugs` comparison in the source
only feeds a log line and is dropped.) -/
def refresh_markets (fetched : List Market) (st : PriceMonitor) : Nat × PriceMonitor :=
  (fetched.length, { st with markets := fetched })

/-! ### Declarative (specification-side) descriptions

These are written from the specification's wording — one value per
qualifying outcome index, enumerated by index — and are proved equal to
the transcribed loops above.  They are only a restatement device; the
authoritative definitions are the transcriptions. -/

/-- The percent change the engine sees at outcome index `i` (0 when the
index is out of range). -/
def change_at (m : Market) (i : Nat) : ℚ :=
  m.get_price_changes.getD i 0

/-- The number of outcome indices the detection loops actually visit:
`zip(outcomes, changes)` stops at the shorter of the two. -/
def alert_bound (m : Market) : Nat :=
  min m.outcomes.length m.get_price_changes.length

/-- Declarative form of `_check_market`: one alert per outcome index with
`|change| ≥ threshold`, in increasing index order. -/
def check_market_spec (thr : ℚ) (now ref : Nat) (m : Market) : List PriceAlert :=
  ((m.outcomes.zip m.get_price_changes).enum).filterMap (fun p =>
    if thr ≤ |p.2.2| then
      some ⟨ref, p.1, p.2.1, m.baseline_prices.getD p.1 0,
        m.outcome_prices.getD p.1 0, p.2.2, now⟩
    else none)

/-- Declarative form of the accumulation over all markets: market
iteration order, then outcome index order. -/
def check_alerts_spec (thr : ℚ) (now : Nat) (ms : List Market) : List PriceAlert :=
  (ms.enum).flatMap (fun p => check_market_spec thr now p.1 p.2)

/-- Declarative form of the candidate pool of `get_top_movers` for one
market: every index below `alert_bound` whose baseline is strictly
positive, in increasing index order. -/
def movers_spec_one (j : Nat) (m : Market) : List Mover :=
  ((m.outcomes.zip m.get_price_changes).enum).filterMap (fun p =>
    if 0 < m.baseline_prices.getD p.1 0 then some ⟨j, p.1, p.2.1, p.2.2⟩ else none)

/-- Declarative form of the whole candidate pool, in market order. -/
def movers_spec_all (ms : List Market) : List Mover :=
  (ms.enum).flatMap (fun p => movers_spec_one p.1 p.2)

/-- The alert `get_top_movers` builds from a candidate (used to state the
alert-construction loop declaratively; the `none` branch is unreachable
for candidates drawn from the pool). -/
def mover_alert (ms : List Market) (now : Nat) (c : Mover) : PriceAlert :=
  match ms[c.ref]? with
  | some m =>
    ⟨c.ref, c.idx, c.outcome, m.baseline_prices.getD c.idx 0,
      m.outcome_prices.getD c.idx 0, c.change, now⟩
  | none => ⟨c.ref, c.idx, c.outcome, 0, 0, c.change, now⟩

/-- Market iteration order, then outcome index order — the ordering the
specification prescribes for alert lists. -/
def alertOrder (a b : PriceAlert) : Prop :=
  a.marketRef < b.marketRef ∨
    (a.marketRef = b.marketRef ∧ a.outcome_index < b.outcome_index)

/-- Same ordering on candidate tuples. -/
def moverOrder (a b : Mover) : Prop :=
  a.ref < b.ref ∨ (a.ref = b.ref ∧ a.idx < b.idx)

/-- The data model's "stable unique token/market identifier" assumption:
the tracked markets carry pairwise distinct `token_id`s.
(`reset_baselines` de-duplicates by `token_id`, so its per-market
description is stated under this assumption.) -/
def tokens_nodup (ms : List Market) : Prop :=
  (ms.map Market.token_id).Nodup

end PriceAlertModel

namespace PriceAlertModel

/-! ### General helper lemmas -/

theorem getElem?_eq_some_getD {α : Type} (l : List α) (d : α) {i : Nat} (h : i < l.length) :
    l[i]? = some (l.getD i d) := by
  rw [List.getD_eq_getElem?_getD, List.getElem?_eq_getElem h]
  rfl

theorem get_price_changes_length (m : Market) :
    m.get_price_changes.length = min m.outcome_prices.length m.baseline_prices.length := by
  simp [Market.get_price_changes]

theorem getD_of_getElem? {α : Type} {l : List α} {i : Nat} {a d : α}
    (h : l[i]? = some a) : i < l.length ∧ l.getD i d = a := by
  have hi : i < l.length := by
    by_contra hc
    rw [List.getElem?_eq_none (Nat.le_of_not_lt hc)] at h
    exact Option.noConfusion h
  refine ⟨hi, ?_⟩
  rw [List.getD_eq_getElem?_getD, h]
  rfl

theorem mem_enumFrom_of_getElem? {α : Type} {l : List α} {n i : Nat} {a : α}
    (h : l[i]? = some a) : (n + i, a) ∈ List.enumFrom n l := by
  rw [List.mk_mem_enumFrom_iff_le_and_getElem?_sub]
  refine ⟨Nat.le_add_right n i, ?_⟩
  rw [Nat.add_sub_cancel_left]
  exact h

theorem mem_enumFrom_getElem? {α : Type} {l : List α} {n : Nat} {p : Nat × α}
    (h : p ∈ List.enumFrom n l) : n ≤ p.1 ∧ l[p.1 - n]? = some p.2 :=
  List.mk_mem_enumFrom_iff_le_and_getElem?_sub.mp h

/-- Characterisation of the enumerated outcome/change pairs the detection
loops iterate over. -/
theorem mem_enum_zip {os : List String} {cs : List ℚ} {p : Nat × String × ℚ} :
    p ∈ (os.zip cs).enum ↔
      p.1 < os.length ∧ p.1 < cs.length ∧
        os.getD p.1 "" = p.2.1 ∧ cs.getD p.1 0 = p.2.2 := by
  rw [List.mem_enum_iff_getElem?, List.getElem?_zip_eq_some]
  constructor
  · rintro ⟨h1, h2⟩
    obtain ⟨ho, ho'⟩ := getD_of_getElem? (d := "") h1
    obtain ⟨hc, hc'⟩ := getD_of_getElem? (d := 0) h2
    exact ⟨ho, hc, ho', hc'⟩
  · rintro ⟨ho, hc, ho', hc'⟩
    constructor
    · rw [getElem?_eq_some_getD os "" ho, ho']
    · rw [getElem?_eq_some_getD cs 0 hc, hc']

/-- The detection loop of `_check_market` never hits an `IndexError` and
produces exactly the declaratively described alerts (stated for an
arbitrary suffix of the enumeration, for the induction). -/
theorem check_outcomes_eq (thr : ℚ) (now ref : Nat) (bp op : List ℚ) :
    ∀ (l : List (String × ℚ)) (i : Nat),
      i + l.length ≤ bp.length → i + l.length ≤ op.length →
      check_outcomes thr now ref bp op i l =
        some ((List.enumFrom i l).filterMap (fun p =>
          if thr ≤ |p.2.2| then
            some ⟨ref, p.1, p.2.1, bp.getD p.1 0, op.getD p.1 0, p.2.2, now⟩
          else none))
  | [], i, _, _ => by simp [check_outcomes]
  | (o, c) :: rest, i, hb, ho => by
    have hbi : i < bp.length := by simp at hb; omega
    have hoi : i < op.length := by simp at ho; omega
    have hb' : i + 1 + rest.length ≤ bp.length := by simp at hb; omega
    have ho' : i + 1 + rest.length ≤ op.length := by simp at ho; omega
    have IH := check_outcomes_eq thr now ref bp op rest (i + 1) hb' ho'
    rw [check_outcomes, List.enumFrom_cons, List.filterMap_cons]
    by_cases hc : thr ≤ |c|
    · rw [if_pos hc, getElem?_eq_some_getD bp 0 hbi, getElem?_eq_some_getD op 0 hoi,
        IH]
      simp [hc]
    · rw [if_neg hc, IH]
      simp [hc]

/-- `_check_market` never raises and computes the declarative alert list. -/
theorem check_market_eq (thr : ℚ) (now ref : Nat) (m : Market) :
    check_market thr now ref m = some (check_market_spec thr now ref m) := by
  have hz : (m.outcomes.zip m.get_price_changes).length ≤ m.get_price_changes.length := by
    rw [List.length_zip]; exact Nat.min_le_right _ _
  have hcb : m.get_price_changes.length ≤ m.baseline_prices.length := by
    rw [get_price_changes_length]; exact Nat.min_le_right _ _
  have hco : m.get_price_changes.length ≤ m.outcome_prices.length := by
    rw [get_price_changes_length]; exact Nat.min_le_left _ _
  exact check_outcomes_eq thr now ref m.baseline_prices m.outcome_prices
    (m.outcomes.zip m.get_price_changes) 0
    (by simpa using le_trans hz hcb) (by simpa using le_trans hz hco)

/-- The accumulation loop of `check_for_alerts` never raises and produces
the concatenation of the per-market declarative alert lists, in market
iteration order. -/
theorem check_all_eq (thr : ℚ) (now : Nat) :
    ∀ (ms : List Market) (j : Nat),
      check_all thr now j ms =
        some ((List.enumFrom j ms).flatMap (fun p => check_market_spec thr now p.1 p.2))
  | [], j => by simp [check_all]
  | m :: rest, j => by
    rw [check_all, check_market_eq, List.enumFrom_cons, List.flatMap_cons]
    rw [check_all_eq thr now rest (j + 1)]
    rfl

/-- The candidate-collection loop of `get_top_movers` never hits an
`IndexError` and produces the declaratively described pool (stated for an
arbitrary suffix of the enumeration, for the induction). -/
theorem collect_movers_aux_eq (j : Nat) (bp : List ℚ) :
    ∀ (l : List (String × ℚ)) (i : Nat),
      i + l.length ≤ bp.length →
      collect_movers_aux j bp i l =
        some ((List.enumFrom i l).filterMap (fun p =>
          if 0 < bp.getD p.1 0 then some ⟨j, p.1, p.2.1, p.2.2⟩ else none))
  | [], i, _ => by simp [collect_movers_aux]
  | (o, c) :: rest, i, hb => by
    have hbi : i < bp.length := by simp at hb; omega
    have hb' : i + 1 + rest.length ≤ bp.length := by simp at hb; omega
    have IH := collect_movers_aux_eq j bp rest (i + 1) hb'
    rw [collect_movers_aux, getElem?_eq_some_getD bp 0 hbi, IH,
      List.enumFrom_cons, List.filterMap_cons]
    by_cases hc : 0 < bp.getD i 0
    · simp only [Option.map_some', if_pos hc]
    · simp only [Option.map_some', if_neg hc]

/-- The per-market candidate collection never raises. -/
theorem collect_movers_eq (j : Nat) (m : Market) :
    collect_movers j m = some (movers_spec_one j m) := by
  have hz : (m.outcomes.zip m.get_price_changes).length ≤ m.get_price_changes.length := by
    rw [List.length_zip]; exact Nat.min_le_right _ _
  have hcb : m.get_price_changes.length ≤ m.baseline_prices.length := by
    rw [get_price_changes_length]; exact Nat.min_le_right _ _
  exact collect_movers_aux_eq j m.baseline_prices
    (m.outcomes.zip m.get_price_changes) 0 (by simpa using le_trans hz hcb)

/-- Candidate collection over all markets never raises. -/
theorem collect_all_movers_eq :
    ∀ (ms : List Market) (j : Nat),
      collect_all_movers j ms =
        some ((List.enumFrom j ms).flatMap (fun p => movers_spec_one p.1 p.2))
  | [], j => by simp [collect_all_movers]
  | m :: rest, j => by
    rw [collect_all_movers, collect_movers_eq, List.enumFrom_cons, List.flatMap_cons]
    rw [collect_all_movers_eq rest (j + 1)]
    rfl

/-- The alert-construction loop of `get_top_movers` never raises on
candidates whose indices are in range, and builds `mover_alert`s. -/
theorem make_alerts_eq (now : Nat) (ms : List Market) :
    ∀ cs : List Mover,
      (∀ c ∈ cs, ∃ m, ms[c.ref]? = some m ∧
        c.idx < m.baseline_prices.length ∧ c.idx < m.outcome_prices.length) →
      make_alerts now ms cs = some (cs.map (mover_alert ms now))
  | [], _ => by simp [make_alerts]
  | c :: rest, H => by
    obtain ⟨m, hm, hb, ho⟩ := H c (List.mem_cons_self c rest)
    have IH := make_alerts_eq now ms rest (fun d hd => H d (List.mem_cons_of_mem c hd))
    rw [make_alerts, hm]
    dsimp only
    rw [getElem?_eq_some_getD _ 0 hb, getElem?_eq_some_getD _ 0 ho, IH]
    simp [mover_alert, hm]

/-! ### The stable descending sort -/

theorem mem_insert_desc {α : Type} (key : α → ℚ) (a x : α) :
    ∀ l : List α, x ∈ insert_desc key a l ↔ x = a ∨ x ∈ l
  | [] => by simp [insert_desc]
  | b :: l => by
    rw [insert_desc]
    by_cases h : key b ≤ key a
    · simp [h]
    · rw [if_neg h]
      simp only [List.mem_cons, mem_insert_desc key a x l]
      tauto

theorem mem_sort_desc {α : Type} (key : α → ℚ) (x : α) :
    ∀ l : List α, x ∈ sort_desc key l ↔ x ∈ l
  | [] => Iff.rfl
  | a :: l => by
    rw [sort_desc, mem_insert_desc, mem_sort_desc key x l, List.mem_cons]

theorem length_insert_desc {α : Type} (key : α → ℚ) (a : α) :
    ∀ l : List α, (insert_desc key a l).length = l.length + 1
  | [] => rfl
  | b :: l => by
    rw [insert_desc]
    by_cases h : key b ≤ key a
    · simp [h]
    · simp [h, length_insert_desc key a l]

theorem length_sort_desc {α : Type} (key : α → ℚ) :
    ∀ l : List α, (sort_desc key l).length = l.length
  | [] => rfl
  | a :: l => by
    rw [sort_desc, length_insert_desc, length_sort_desc key l, List.length_cons]

/-- Inserting keeps descending sortedness. -/
theorem pairwise_insert_desc {α : Type} (key : α → ℚ) (a : α) :
    ∀ l : List α, l.Pairwise (fun x y => key y ≤ key x) →
      (insert_desc key a l).Pairwise (fun x y => key y ≤ key x)
  | [], _ => List.pairwise_singleton _ a
  | b :: l, hp => by
    rw [List.pairwise_cons] at hp
    rw [insert_desc]
    by_cases h : key b ≤ key a
    · rw [if_pos h, List.pairwise_cons]
      refine ⟨?_, List.pairwise_cons.mpr hp⟩
      intro x hx
      rcases List.mem_cons.mp hx with rfl | hx
      · exact h
      · exact le_trans (hp.1 x hx) h
    · rw [if_neg h, List.pairwise_cons]
      refine ⟨?_, pairwise_insert_desc key a l hp.2⟩
      intro x hx
      rcases (mem_insert_desc key a x l).mp hx with rfl | hx
      · exact le_of_lt (lt_of_not_le h)
      · exact hp.1 x hx

/-- The sort output is descending in the key. -/
theorem pairwise_sort_desc {α : Type} (key : α → ℚ) :
    ∀ l : List α, (sort_desc key l).Pairwise (fun x y => key y ≤ key x)
  | [] => List.Pairwise.nil
  | a :: l => pairwise_insert_desc key a _ (pairwise_sort_desc key l)

/-- Stability, in pairwise form: any relation `Q` that held pairwise on the
input still holds in the output between elements of equal key (the sort
only ever moves an element past one with a strictly different key). -/
theorem stable_insert_desc {α : Type} (key : α → ℚ) (Q : α → α → Prop) (a : α) :
    ∀ l : List α,
      l.Pairwise (fun x y => key x = key y → Q x y) →
      (∀ b ∈ l, key a = key b → Q a b) →
      (insert_desc key a l).Pairwise (fun x y => key x = key y → Q x y)
  | [], _, _ => List.pairwise_singleton _ a
  | b :: l, hp, ha => by
    rw [List.pairwise_cons] at hp
    rw [insert_desc]
    by_cases h : key b ≤ key a
    · rw [if_pos h, List.pairwise_cons]
      exact ⟨fun x hx => ha x hx, List.pairwise_cons.mpr hp⟩
    · rw [if_neg h, List.pairwise_cons]
      refine ⟨?_, stable_insert_desc key Q a l hp.2
        (fun c hc => ha c (List.mem_cons_of_mem b hc))⟩
      intro x hx hkey
      rcases (mem_insert_desc key a x l).mp hx with rfl | hx
      · exact absurd (le_of_eq hkey) h
      · exact hp.1 x hx hkey

theorem stable_sort_desc {α : Type} (key : α → ℚ) (Q : α → α → Prop) :
    ∀ l : List α,
      l.Pairwise (fun x y => key x = key y → Q x y) →
      (sort_desc key l).Pairwise (fun x y => key x = key y → Q x y)
  | [], _ => List.Pairwise.nil
  | a :: l, hp => by
    rw [List.pairwise_cons] at hp
    refine stable_insert_desc key Q a _ (stable_sort_desc key Q l hp.2) ?_
    intro b hb
    exact hp.1 b ((mem_sort_desc key b l).mp hb)

/-! ### Membership and ordering of the declarative lists -/

/-- What it means to be an alert of the declarative per-market list. -/
theorem mem_check_market_spec {thr : ℚ} {now ref : Nat} {m : Market} {a : PriceAlert} :
    a ∈ check_market_spec thr now ref m ↔
      ∃ i, i < m.outcomes.length ∧ i < m.get_price_changes.length ∧
        thr ≤ |change_at m i| ∧
        a = ⟨ref, i, m.outcomes.getD i "", m.baseline_prices.getD i 0,
          m.outcome_prices.getD i 0, change_at m i, now⟩ := by
  rw [check_market_spec, List.mem_filterMap]
  constructor
  · rintro ⟨p, hp, hfa⟩
    rw [mem_enum_zip] at hp
    obtain ⟨h1, h2, h3, h4⟩ := hp
    by_cases hc : thr ≤ |p.2.2|
    · rw [if_pos hc] at hfa
      refine ⟨p.1, h1, h2, ?_, ?_⟩
      · simpa only [change_at, h4] using hc
      · rw [← Option.some_inj, ← hfa]
        simp only [change_at, h3, h4]
    · rw [if_neg hc] at hfa
      exact absurd hfa (by simp)
  · rintro ⟨i, h1, h2, hthr, rfl⟩
    refine ⟨(i, (m.outcomes.getD i "", change_at m i)), ?_, ?_⟩
    · rw [mem_enum_zip]
      exact ⟨h1, h2, rfl, rfl⟩
    · rw [if_pos hthr]

/-- What it means to be a candidate of the declarative per-market pool. -/
theorem mem_movers_spec_one {j : Nat} {m : Market} {c : Mover} :
    c ∈ movers_spec_one j m ↔
      ∃ i, i < m.outcomes.length ∧ i < m.get_price_changes.length ∧
        0 < m.baseline_prices.getD i 0 ∧
        c = ⟨j, i, m.outcomes.getD i "", change_at m i⟩ := by
  rw [movers_spec_one, List.mem_filterMap]
  constructor
  · rintro ⟨p, hp, hfa⟩
    rw [mem_enum_zip] at hp
    obtain ⟨h1, h2, h3, h4⟩ := hp
    by_cases hc : 0 < m.baseline_prices.getD p.1 0
    · rw [if_pos hc] at hfa
      refine ⟨p.1, h1, h2, hc, ?_⟩
      rw [← Option.some_inj, ← hfa]
      simp only [change_at, h3, h4]
    · rw [if_neg hc] at hfa
      exact absurd hfa (by simp)
  · rintro ⟨i, h1, h2, hpos, rfl⟩
    refine ⟨(i, (m.outcomes.getD i "", change_at m i)), ?_, ?_⟩
    · rw [mem_enum_zip]
      exact ⟨h1, h2, rfl, rfl⟩
    · rw [if_pos hpos]

theorem pairwise_enumFrom {α : Type} :
    ∀ (l : List α) (n : Nat), (List.enumFrom n l).Pairwise (fun p q => p.1 < q.1)
  | [], _ => List.Pairwise.nil
  | a :: l, n => by
    rw [List.enumFrom_cons, List.pairwise_cons]
    refine ⟨?_, pairwise_enumFrom l (n + 1)⟩
    intro p hp
    exact lt_of_lt_of_le (Nat.lt_succ_self n) (mem_enumFrom_getElem? hp).1

/-- Alerts of one market's declarative list carry that market's index and
strictly increasing outcome indices. -/
theorem check_market_spec_refs {thr : ℚ} {now ref : Nat} {m : Market} :
    (∀ a ∈ check_market_spec thr now ref m, a.marketRef = ref) ∧
      (check_market_spec thr now ref m).Pairwise
        (fun a b => a.outcome_index < b.outcome_index) := by
  constructor
  · intro a ha
    obtain ⟨i, _, _, _, rfl⟩ := mem_check_market_spec.mp ha
    rfl
  · rw [check_market_spec]
    refine List.Pairwise.filterMap _ ?_ (pairwise_enumFrom _ 0)
    intro p q hpq a ha b hb
    by_cases hcp : thr ≤ |p.2.2|
    · by_cases hcq : thr ≤ |q.2.2|
      · rw [if_pos hcp] at ha
        rw [if_pos hcq] at hb
        simp only [Option.mem_def, Option.some_inj] at ha hb
        rw [← ha, ← hb]
        exact hpq
      · rw [if_neg hcq] at hb
        exact absurd hb (by simp)
    · rw [if_neg hcp] at ha
      exact absurd ha (by simp)

/-- Candidates of one market's declarative pool carry that market's index
and strictly increasing outcome indices. -/
theorem movers_spec_one_refs {j : Nat} {m : Market} :
    (∀ c ∈ movers_spec_one j m, c.ref = j) ∧
      (movers_spec_one j m).Pairwise (fun a b => a.idx < b.idx) := by
  constructor
  · intro c hc
    obtain ⟨i, _, _, _, rfl⟩ := mem_movers_spec_one.mp hc
    rfl
  · rw [movers_spec_one]
    refine List.Pairwise.filterMap _ ?_ (pairwise_enumFrom _ 0)
    intro p q hpq a ha b hb
    by_cases hcp : 0 < m.baseline_prices.getD p.1 0
    · by_cases hcq : 0 < m.baseline_prices.getD q.1 0
      · rw [if_pos hcp] at ha
        rw [if_pos hcq] at hb
        simp only [Option.mem_def, Option.some_inj] at ha hb
        rw [← ha, ← hb]
        exact hpq
      · rw [if_neg hcq] at hb
        exact absurd hb (by simp)
    · rw [if_neg hcp] at ha
      exact absurd ha (by simp)

/-- Market-order-then-outcome-order holds pairwise across the whole
flat-mapped enumeration, for any per-market generator whose elements carry
the market index and increasing outcome indices. -/
theorem pairwise_order_flatMap {β : Type} (refF idxF : β → Nat)
    (g : Nat → Market → List β)
    (h1 : ∀ j m, ∀ b ∈ g j m, refF b = j)
    (h2 : ∀ j m, (g j m).Pairwise (fun a b => idxF a < idxF b)) :
    ∀ (ms : List Market) (n : Nat),
      ((List.enumFrom n ms).flatMap (fun p => g p.1 p.2)).Pairwise
        (fun a b => refF a < refF b ∨ (refF a = refF b ∧ idxF a < idxF b))
  | [], _ => List.Pairwise.nil
  | m :: rest, n => by
    rw [List.enumFrom_cons, List.flatMap_cons, List.pairwise_append]
    refine ⟨?_, pairwise_order_flatMap refF idxF g h1 h2 rest (n + 1), ?_⟩
    · refine (h2 n m).imp_of_mem ?_
      intro a b ha hb hab
      exact Or.inr ⟨(h1 n m a ha).trans (h1 n m b hb).symm, hab⟩
    · intro a ha b hb
      obtain ⟨p, hp, hbp⟩ := List.mem_flatMap.mp hb
      have hpn : n + 1 ≤ p.1 := (mem_enumFrom_getElem? hp).1
      left
      rw [h1 n m a ha, h1 p.1 p.2 b hbp]
      omega

/-! ### Frame lemmas for the price refresh -/

/-- The refresh loop maps each market through `refresh_one`, preserving
order and count. -/
theorem refresh_market_prices_markets (fetch : String → Option (List ℚ)) (now : Nat) :
    ∀ ms : List Market,
      (refresh_market_prices fetch now ms).1 = ms.map (fun m => (refresh_one fetch now m).1)
  | [] => rfl
  | m :: rest => by
    rw [refresh_market_prices, List.map_cons]
    rw [← refresh_market_prices_markets fetch now rest]

/-- A price refresh touches only `outcome_prices` and `last_updated`. -/
theorem refresh_one_frame (fetch : String → Option (List ℚ)) (now : Nat) (m : Market) :
    ((refresh_one fetch now m).1).token_id = m.token_id ∧
    ((refresh_one fetch now m).1).condition_id = m.condition_id ∧
    ((refresh_one fetch now m).1).question = m.question ∧
    ((refresh_one fetch now m).1).slug = m.slug ∧
    ((refresh_one fetch now m).1).volume = m.volume ∧
    ((refresh_one fetch now m).1).outcomes = m.outcomes ∧
    ((refresh_one fetch now m).1).baseline_prices = m.baseline_prices := by
  cases hf : fetch m.slug with
  | none => simp [refresh_one, hf]
  | some prices =>
    by_cases h : prices = [] <;>
      simp [refresh_one, hf, h, Market.update_prices]

/-- C1: for a market whose three sequences have equal length,
`get_price_changes` returns one entry per outcome index, aligned with
`outcomes`; entry `i` is `((outcome_prices[i] - baseline_prices[i]) /
baseline_prices[i]) * 100` when `baseline_prices[i] > 0` and `0.0` when
`baseline_prices[i] ≤ 0` (no division-by-zero error).  The operation is a
pure function of the market (its Lean type `Market → List ℚ` returns no
updated market, mirroring that the Python method assigns to no field). -/
theorem get_price_changes_spec (m : Market)
    (h1 : m.outcomes.length = m.outcome_prices.length)
    (h2 : m.outcome_prices.length = m.baseline_prices.length) :
    m.get_price_changes.length = m.outcomes.length ∧
    ∀ i, i < m.outcomes.length →
      (0 < m.baseline_prices.getD i 0 →
        m.get_price_changes[i]? =
          some (((m.outcome_prices.getD i 0 - m.baseline_prices.getD i 0) /
              m.baseline_prices.getD i 0) * 100)) ∧
      (m.baseline_prices.getD i 0 ≤ 0 → m.get_price_changes[i]? = some 0) := by
  have hlen : m.get_price_changes.length = m.outcomes.length := by
    rw [get_price_changes_length, ← h2, ← h1, Nat.min_self]
  refine ⟨hlen, fun i hi => ?_⟩
  have hop : i < m.outcome_prices.length := h1 ▸ hi
  have hbp : i < m.baseline_prices.length := h2 ▸ hop
  have hz : i < (m.outcome_prices.zip m.baseline_prices).length := by
    rw [List.length_zip]; exact lt_min hop hbp
  have hzv : (m.outcome_prices.zip m.baseline_prices)[i]? =
      some (m.outcome_prices.getD i 0, m.baseline_prices.getD i 0) := by
    rw [List.getElem?_zip_eq_some]
    exact ⟨getElem?_eq_some_getD _ 0 hop, getElem?_eq_some_getD _ 0 hbp⟩
  have hget : m.get_price_changes[i]? =
      some (if 0 < m.baseline_prices.getD i 0 then
        ((m.outcome_prices.getD i 0 - m.baseline_prices.getD i 0) /
            m.baseline_prices.getD i 0) * 100 else 0) := by
    rw [Market.get_price_changes, List.getElem?_map, hzv]; rfl
  constructor
  · intro hpos; rw [hget, if_pos hpos]
  · intro hnonpos; rw [hget, if_neg (by exact not_lt.mpr hnonpos)]

/-- Witness for C1 at a concrete market. -/
theorem get_price_changes_spec_witness :
    let m := mkMarket "t1" "c1" "q" "s" 0 ["Yes", "No"] [1, 2] 0
    m.outcomes.length = m.outcome_prices.length ∧
    m.outcome_prices.length = m.baseline_prices.length ∧
    m.get_price_changes.length = m.outcomes.length := by
  intro m
  refine ⟨rfl, rfl, ?_⟩
  exact (get_price_changes_spec m rfl rfl).1

/-- Shared closed form of `check_for_alerts` on an initialized engine. -/
theorem check_for_alerts_init_eq (fetch : String → Option (List ℚ)) (now : Nat)
    (st : PriceMonitor) (h : st.initialized = true) :
    check_for_alerts fetch now st =
      some (check_alerts_spec st.threshold_percent now
          (refresh_market_prices fetch now st.markets).1,
        false,
        ({ st with
            markets := (refresh_market_prices fetch now st.markets).1
            last_scan_time := some now } : PriceMonitor)) := by
  simp only [check_for_alerts, h, if_true]
  rw [check_all_eq]
  rfl

/-- Shared closed form of `check_for_alerts` on an engine that was never
initialized: empty alert list, warning flag set, state untouched. -/
theorem check_for_alerts_uninit_eq (fetch : String → Option (List ℚ)) (now : Nat)
    (st : PriceMonitor) (h : st.initialized = false) :
    check_for_alerts fetch now st = some ([], true, st) := by
  simp [check_for_alerts, h]

/-- C2: on an initialized engine, `check_for_alerts` refreshes prices and
then returns exactly one alert per (market, outcome index) pair whose
post-refresh change passes the inclusive `|change| ≥ threshold` test: every
returned alert belongs to such a pair and carries the baseline as old
price, the current price as new price and the signed change; every such
pair yields an alert; and the list is strictly ordered by market iteration
order, then outcome index order (so no pair occurs twice). -/
theorem check_for_alerts_spec (fetch : String → Option (List ℚ)) (now : Nat)
    (st : PriceMonitor) (hinit : st.initialized = true) :
    ∃ alerts st2,
      check_for_alerts fetch now st = some (alerts, false, st2) ∧
      st2.markets = (refresh_market_prices fetch now st.markets).1 ∧
      st2.threshold_percent = st.threshold_percent ∧
      st2.last_scan_time = some now ∧
      alerts = check_alerts_spec st.threshold_percent now st2.markets ∧
      (∀ a ∈ alerts, ∃ m, st2.markets[a.marketRef]? = some m ∧
        a.outcome_index < m.outcomes.length ∧
        a.outcome_index < m.get_price_changes.length ∧
        st.threshold_percent ≤ |a.change_percent| ∧
        a.change_percent = change_at m a.outcome_index ∧
        a.old_price = m.baseline_prices.getD a.outcome_index 0 ∧
        a.new_price = m.outcome_prices.getD a.outcome_index 0 ∧
        a.outcome = m.outcomes.getD a.outcome_index "") ∧
      (∀ j m i, st2.markets[j]? = some m → i < m.outcomes.length →
        i < m.get_price_changes.length →
        st.threshold_percent ≤ |change_at m i| →
        ∃ a ∈ alerts, a.marketRef = j ∧ a.outcome_index = i) ∧
      alerts.Pairwise alertOrder := by
  refine ⟨check_alerts_spec st.threshold_percent now
      (refresh_market_prices fetch now st.markets).1,
    ({ st with
        markets := (refresh_market_prices fetch now st.markets).1
        last_scan_time := some now } : PriceMonitor),
    ?_, rfl, rfl, rfl, rfl, ?_, ?_, ?_⟩
  · exact check_for_alerts_init_eq fetch now st hinit
  · intro a ha
    obtain ⟨p, hp, hap⟩ := List.mem_flatMap.mp ha
    rw [List.mem_enum_iff_getElem?] at hp
    obtain ⟨i, h1, h2, hthr, rfl⟩ := mem_check_market_spec.mp hap
    exact ⟨p.2, hp, h1, h2, hthr, rfl, rfl, rfl, rfl⟩
  · intro j m i hjm h1 h2 hthr
    refine ⟨⟨j, i, m.outcomes.getD i "", m.baseline_prices.getD i 0,
      m.outcome_prices.getD i 0, change_at m i, now⟩, ?_, rfl, rfl⟩
    exact List.mem_flatMap.mpr ⟨(j, m), List.mem_enum_iff_getElem?.mpr hjm,
      mem_check_market_spec.mpr ⟨i, h1, h2, hthr, rfl⟩⟩
  · exact pairwise_order_flatMap PriceAlert.marketRef PriceAlert.outcome_index
      (fun j m => check_market_spec st.threshold_percent now j m)
      (fun j m => check_market_spec_refs.1)
      (fun j m => check_market_spec_refs.2) _ 0

/-- Witness for C2 on a concrete initialized engine with one market. -/
theorem check_for_alerts_spec_witness :
    let m := mkMarket "t1" "c1" "q" "s" 0 ["Yes", "No"] [1, 2] 0
    let st : PriceMonitor :=
      { threshold_percent := 3, min_volume := 0, markets := [m],
        initialized := true, last_scan_time := some 0 }
    st.initialized = true ∧
      ∃ alerts st2,
        check_for_alerts (fun _ => none) 1 st = some (alerts, false, st2) := by
  intro m st
  refine ⟨rfl, ?_⟩
  obtain ⟨alerts, st2, h, -⟩ := check_for_alerts_spec (fun _ => none) 1 st rfl
  exact ⟨alerts, st2, h⟩

/-- C4: whatever `check_for_alerts` returns, every market's
`baseline_prices` — and every field other than the current prices and the
update timestamp — is exactly what it was before the call; baselines move
only through an explicit `reset_baselines`. -/
theorem check_for_alerts_preserves_baselines (fetch : String → Option (List ℚ))
    (now : Nat) (st : PriceMonitor) (out : List PriceAlert × Bool × PriceMonitor)
    (h : check_for_alerts fetch now st = some out) :
    out.2.2.markets.map (fun m => (m.token_id, m.condition_id, m.question, m.slug,
        m.volume, m.outcomes, m.baseline_prices)) =
      st.markets.map (fun m => (m.token_id, m.condition_id, m.question, m.slug,
        m.volume, m.outcomes, m.baseline_prices)) ∧
    out.2.2.markets.length = st.markets.length := by
  by_cases hinit : st.initialized = true
  · rw [check_for_alerts_init_eq fetch now st hinit] at h
    obtain rfl := Option.some_inj.mp h
    constructor
    · rw [refresh_market_prices_markets, List.map_map]
      refine List.map_congr_left ?_
      intro m _
      obtain ⟨t, c, q, s, v, o, b⟩ := refresh_one_frame fetch now m
      simp [Function.comp, t, c, q, s, v, o, b]
    · rw [refresh_market_prices_markets, List.length_map]
  · have hfalse : st.initialized = false := by
      cases hb : st.initialized
      · rfl
      · exact absurd hb hinit
    rw [check_for_alerts_uninit_eq fetch now st hfalse] at h
    obtain rfl := Option.some_inj.mp h
    exact ⟨rfl, rfl⟩

/-- Witness for C4 on a concrete initialized engine. -/
theorem check_for_alerts_preserves_baselines_witness :
    let m := mkMarket "t1" "c1" "q" "s" 0 ["Yes", "No"] [1, 2] 0
    let st : PriceMonitor :=
      { threshold_percent := 3, min_volume := 0, markets := [m],
        initialized := true, last_scan_time := some 0 }
    let fetch : String → Option (List ℚ) := fun _ => some [2, 1]
    ∀ out, check_for_alerts fetch 1 st = some out →
      out.2.2.markets.map (fun m => (m.token_id, m.condition_id, m.question, m.slug,
          m.volume, m.outcomes, m.baseline_prices)) =
        st.markets.map (fun m => (m.token_id, m.condition_id, m.question, m.slug,
          m.volume, m.outcomes, m.baseline_prices)) :=
  fun out h => (check_for_alerts_preserves_baselines _ 1 _ out h).1

/-- C8: calling `check_for_alerts` on an engine whose `initialize` was
never run returns the empty alert sequence together with the
"not initialized" warning signal, raises nothing (the result is `some`,
never the `none` that models an escaping exception), and returns the
engine state completely unchanged — same market set, same
`last_scan_time`, same flags and configuration. -/
theorem check_for_alerts_not_initialized (fetch : String → Option (List ℚ))
    (now : Nat) (st : PriceMonitor) (h : st.initialized = false) :
    check_for_alerts fetch now st = some ([], true, st) ∧
    (∀ alerts warn st2, check_for_alerts fetch now st = some (alerts, warn, st2) →
      alerts = [] ∧ warn = true ∧ st2 = st ∧
      st2.markets = st.markets ∧ st2.last_scan_time = st.last_scan_time) := by
  have he := check_for_alerts_uninit_eq fetch now st h
  refine ⟨he, ?_⟩
  intro alerts warn st2 h2
  rw [he] at h2
  obtain ⟨h4, h5, h6⟩ : ([] : List PriceAlert) = alerts ∧ (true : Bool) = warn ∧ st = st2 := by
    simpa [Prod.ext_iff] using Option.some_inj.mp h2
  subst h4
  subst h5
  subst h6
  exact ⟨rfl, rfl, rfl, rfl, rfl⟩

/-- Witness for C8 on a concrete never-initialized engine. -/
theorem check_for_alerts_not_initialized_witness :
    let st := PriceMonitor.mk0 3 0
    st.initialized = false ∧
      check_for_alerts (fun _ => none) 5 st = some ([], true, st) :=
  ⟨rfl, (check_for_alerts_not_initialized (fun _ => none) 5 (PriceMonitor.mk0 3 0) rfl).1⟩

/-- C10: `refresh_markets` mutates only the engine's market list — the
`initialized` flag, `last_scan_time` and the configuration are untouched —
so after loading markets through `refresh_markets` on a never-initialized
engine, `check_for_alerts` still returns the empty list with the
"not initialized" warning and changes nothing. -/
theorem refresh_markets_frame (fetched : List Market)
    (fetch : String → Option (List ℚ)) (now : Nat) (st : PriceMonitor) :
    (refresh_markets fetched st).2.initialized = st.initialized ∧
    (refresh_markets fetched st).2.last_scan_time = st.last_scan_time ∧
    (refresh_markets fetched st).2.threshold_percent = st.threshold_percent ∧
    (refresh_markets fetched st).2.min_volume = st.min_volume ∧
    (refresh_markets fetched st).2.markets = fetched ∧
    (st.initialized = false →
      check_for_alerts fetch now (refresh_markets fetched st).2 =
        some ([], true, (refresh_markets fetched st).2)) := by
  refine ⟨rfl, rfl, rfl, rfl, rfl, fun h => ?_⟩
  exact check_for_alerts_uninit_eq fetch now _ h

/-- Witness for C10: loading one market through `refresh_markets` on a
fresh engine still leaves `check_for_alerts` warning and returning `[]`. -/
theorem refresh_markets_frame_witness :
    let m := mkMarket "t1" "c1" "q" "s" 0 ["Yes", "No"] [1, 2] 0
    let st := PriceMonitor.mk0 3 0
    (refresh_markets [m] st).2.initialized = false ∧
      check_for_alerts (fun _ => none) 5 (refresh_markets [m] st).2 =
        some ([], true, (refresh_markets [m] st).2) := by
  intro m st
  exact ⟨rfl, (refresh_markets_frame [m] (fun _ => none) 5 st).2.2.2.2.2 rfl⟩

/-! ### Baseline reset: helper lemmas and claim C3 -/

theorem list_set_self {α : Type} :
    ∀ (l : List α) (r : Nat) (a : α), l[r]? = some a → l.set r a = l
  | [], r, a, h => by simp at h
  | x :: xs, 0, a, h => by
    simp only [List.getElem?_cons_zero, Option.some_inj] at h
    rw [List.set_cons_zero, h]
  | x :: xs, r + 1, a, h => by
    rw [List.getElem?_cons_succ] at h
    rw [List.set_cons_succ, list_set_self xs r a h]

/-- Resetting a market's baseline in place does not change the identifier
list, so identifier distinctness is preserved. -/
theorem tokens_nodup_set_reset {ms : List Market} {r : Nat} {m : Market}
    (hm : ms[r]? = some m) (hn : tokens_nodup ms) :
    tokens_nodup (ms.set r m.reset_baseline) := by
  rw [tokens_nodup, List.map_set]
  have hr : (ms.map Market.token_id)[r]? = some m.token_id := by
    rw [List.getElem?_map, hm]
    rfl
  show ((ms.map Market.token_id).set r m.token_id).Nodup
  rw [list_set_self _ r _ hr]
  exact hn

/-- With pairwise distinct identifiers, equal identifiers force equal
positions. -/
theorem tokens_nodup_inj {ms : List Market} (hn : tokens_nodup ms) {j k : Nat}
    {mj mk : Market} (hj : ms[j]? = some mj) (hk : ms[k]? = some mk)
    (ht : mj.token_id = mk.token_id) : j = k := by
  have hj' : (ms.map Market.token_id)[j]? = some mj.token_id := by
    rw [List.getElem?_map, hj]; rfl
  have hk' : (ms.map Market.token_id)[k]? = some mk.token_id := by
    rw [List.getElem?_map, hk]; rfl
  have hjl : j < (ms.map Market.token_id).length := by
    rw [List.length_map]
    exact (getD_of_getElem? (d := mj) hj).1
  exact List.getElem?_inj hjl hn (by rw [hj', hk', ht])

/-- Full characterisation of the `reset_baselines` loop, for any starting
`processed_markets` set: a position is reset exactly when some alert
references it and its identifier was not yet processed. -/
theorem reset_baselines_aux_spec :
    ∀ (alerts : List PriceAlert) (processed : List String) (ms : List Market),
      (∀ a ∈ alerts, a.marketRef < ms.length) →
      tokens_nodup ms →
      ∃ ms2, reset_baselines_aux alerts processed ms = some ms2 ∧
        ms2.length = ms.length ∧
        ∀ j : Nat,
          (((∃ a ∈ alerts, a.marketRef = j) ∧
              (∀ m, ms[j]? = some m → m.token_id ∉ processed)) →
            ms2[j]? = (ms[j]?).map Market.reset_baseline) ∧
          ((¬ ((∃ a ∈ alerts, a.marketRef = j) ∧
              (∀ m, ms[j]? = some m → m.token_id ∉ processed))) →
            ms2[j]? = ms[j]?)
  | [], processed, ms, _, _ => by
    refine ⟨ms, rfl, rfl, fun j => ⟨?_, fun _ => rfl⟩⟩
    rintro ⟨⟨a, ha, -⟩, -⟩
    exact absurd ha (List.not_mem_nil a)
  | a :: rest, processed, ms, href, hn => by
    have hr : a.marketRef < ms.length := href a (List.mem_cons_self a rest)
    obtain ⟨m, hm⟩ : ∃ m, ms[a.marketRef]? = some m :=
      ⟨_, List.getElem?_eq_getElem hr⟩
    by_cases hp : m.token_id ∈ processed
    · obtain ⟨ms2, heq, hlen, hchar⟩ :=
        reset_baselines_aux_spec rest processed ms
          (fun b hb => href b (List.mem_cons_of_mem a hb)) hn
      refine ⟨ms2, ?_, hlen, fun j => ⟨?_, ?_⟩⟩
      · simp only [reset_baselines_aux, hm]
        rw [if_pos hp]
        exact heq
      · rintro ⟨⟨a', ha', hja⟩, hproc⟩
        rcases List.mem_cons.mp ha' with rfl | ha'
        · subst hja
          exact absurd hp (hproc m hm)
        · exact (hchar j).1 ⟨⟨a', ha', hja⟩, hproc⟩
      · intro hneg
        apply (hchar j).2
        rintro ⟨⟨a', ha', hja⟩, hproc⟩
        exact hneg ⟨⟨a', List.mem_cons_of_mem a ha', hja⟩, hproc⟩
    · have hlenset : (ms.set a.marketRef m.reset_baseline).length = ms.length :=
        List.length_set ..
      obtain ⟨ms2, heq, hlen2, hchar⟩ :=
        reset_baselines_aux_spec rest (m.token_id :: processed)
          (ms.set a.marketRef m.reset_baseline)
          (fun b hb => hlenset ▸ href b (List.mem_cons_of_mem a hb))
          (tokens_nodup_set_reset hm hn)
      have hsetr : (ms.set a.marketRef m.reset_baseline)[a.marketRef]? =
          some m.reset_baseline := List.getElem?_set_self hr
      refine ⟨ms2, ?_, by rw [hlen2, hlenset], fun j => ?_⟩
      · simp only [reset_baselines_aux, hm]
        rw [if_neg hp]
        exact heq
      · by_cases hj : j = a.marketRef
        · have hmj : ms[j]? = some m := by rw [hj]; exact hm
          have hsetr' : (ms.set a.marketRef m.reset_baseline)[j]? =
              some m.reset_baseline := by rw [hj]; exact hsetr
          have hcfalse : ¬ ((∃ b ∈ rest, b.marketRef = j) ∧
              (∀ m', (ms.set a.marketRef m.reset_baseline)[j]? = some m' →
                m'.token_id ∉ m.token_id :: processed)) := by
            rintro ⟨-, hproc⟩
            exact hproc m.reset_baseline hsetr' (List.mem_cons_self _ _)
          have h2 : ms2[j]? = (ms.set a.marketRef m.reset_baseline)[j]? :=
            (hchar j).2 hcfalse
          constructor
          · intro _
            rw [h2, hsetr', hmj]
            rfl
          · intro hneg
            exfalso
            apply hneg
            refine ⟨⟨a, List.mem_cons_self a rest, hj.symm⟩, ?_⟩
            intro m' hm'
            rw [hmj] at hm'
            obtain rfl := Option.some_inj.mp hm'
            exact hp
        · have hmsj : (ms.set a.marketRef m.reset_baseline)[j]? = ms[j]? :=
            List.getElem?_set_ne (fun hh => hj hh.symm)
          have hcond_iff : ((∃ b ∈ a :: rest, b.marketRef = j) ∧
              (∀ m', ms[j]? = some m' → m'.token_id ∉ processed)) ↔
              ((∃ b ∈ rest, b.marketRef = j) ∧
                (∀ m', (ms.set a.marketRef m.reset_baseline)[j]? = some m' →
                  m'.token_id ∉ m.token_id :: processed)) := by
            constructor
            · rintro ⟨⟨b, hb, hjb⟩, hproc⟩
              rcases List.mem_cons.mp hb with rfl | hb
              · exact absurd hjb.symm hj
              · refine ⟨⟨b, hb, hjb⟩, ?_⟩
                intro m' hm'
                rw [hmsj] at hm'
                have hne : m'.token_id ≠ m.token_id := by
                  intro hteq
                  exact hj (tokens_nodup_inj hn hm' hm hteq)
                intro hmem
                rcases List.mem_cons.mp hmem with h | h
                · exact hne h
                · exact hproc m' hm' h
            · rintro ⟨⟨b, hb, hjb⟩, hproc⟩
              refine ⟨⟨b, List.mem_cons_of_mem a hb, hjb⟩, ?_⟩
              intro m' hm'
              have hnotin := hproc m' (by rw [hmsj]; exact hm')
              intro hmem
              exact hnotin (List.mem_cons_of_mem _ hmem)
          constructor
          · intro hc
            rw [(hchar j).1 (hcond_iff.mp hc), hmsj]
          · intro hneg
            rw [(hchar j).2 (fun hc => hneg (hcond_iff.mpr hc)), hmsj]

/-- C3: under the data model's unique-identifier assumption,
`reset_baselines` raises nothing and (i) every market referenced by some
alert ends with `baseline_prices` equal to its `outcome_prices` at call
time (it is replaced by its `reset_baseline`, whose only changed field is
the baseline), (ii) every unreferenced market is completely untouched,
(iii) an empty alert list mutates nothing, and (iv) a second call with the
same alerts is a no-op. -/
theorem reset_baselines_spec (alerts : List PriceAlert) (ms : List Market)
    (href : ∀ a ∈ alerts, a.marketRef < ms.length)
    (hinj : tokens_nodup ms) :
    ∃ ms2, reset_baselines alerts ms = some ms2 ∧
      ms2.length = ms.length ∧
      (∀ j, (∃ a ∈ alerts, a.marketRef = j) →
        ms2[j]? = (ms[j]?).map Market.reset_baseline) ∧
      (∀ j, (¬ ∃ a ∈ alerts, a.marketRef = j) → ms2[j]? = ms[j]?) ∧
      (∀ j m2, (∃ a ∈ alerts, a.marketRef = j) → ms2[j]? = some m2 →
        m2.baseline_prices = m2.outcome_prices) ∧
      (alerts = [] → ms2 = ms) ∧
      reset_baselines alerts ms2 = some ms2 := by
  obtain ⟨ms2, heq, hlen, hchar⟩ := reset_baselines_aux_spec alerts [] ms href hinj
  have hres : ∀ j, (∃ a ∈ alerts, a.marketRef = j) →
      ms2[j]? = (ms[j]?).map Market.reset_baseline :=
    fun j hex => (hchar j).1 ⟨hex, fun m _ => List.not_mem_nil m.token_id⟩
  have hkeep : ∀ j, (¬ ∃ a ∈ alerts, a.marketRef = j) → ms2[j]? = ms[j]? :=
    fun j hnex => (hchar j).2 (fun hc => hnex hc.1)
  have htok : ∀ j : Nat,
      (ms2[j]?).map Market.token_id = (ms[j]?).map Market.token_id := by
    intro j
    by_cases hex : ∃ a ∈ alerts, a.marketRef = j
    · rw [hres j hex]
      cases ms[j]? <;> rfl
    · rw [hkeep j hex]
  have hmap : ms2.map Market.token_id = ms.map Market.token_id :=
    List.ext_getElem? fun n => by
      rw [List.getElem?_map, List.getElem?_map]
      exact htok n
  have hinj2 : tokens_nodup ms2 := by
    rw [tokens_nodup, hmap]
    exact hinj
  have href2 : ∀ a ∈ alerts, a.marketRef < ms2.length :=
    fun a ha => hlen ▸ href a ha
  obtain ⟨ms3, heq3, _, hchar3⟩ := reset_baselines_aux_spec alerts [] ms2 href2 hinj2
  have hms32 : ms3 = ms2 := by
    refine List.ext_getElem? fun j => ?_
    by_cases hex : ∃ a ∈ alerts, a.marketRef = j
    · rw [(hchar3 j).1 ⟨hex, fun m _ => List.not_mem_nil m.token_id⟩, hres j hex]
      cases ms[j]? <;> rfl
    · exact (hchar3 j).2 (fun hc => hex hc.1)
  refine ⟨ms2, heq, hlen, hres, hkeep, ?_, ?_, ?_⟩
  · intro j m2 hex h2
    have := hres j hex
    rw [h2] at this
    obtain ⟨m, hm, hm2⟩ := (Option.map_eq_some'.mp this.symm)
    rw [← hm2]
    rfl
  · intro h
    subst h
    exact (Option.some_inj.mp heq).symm
  · show reset_baselines_aux alerts [] ms2 = some ms2
    rw [heq3, hms32]

/-- Witness for C3 with one market and one alert referencing it. -/
theorem reset_baselines_spec_witness :
    (∀ a ∈ ([⟨0, 0, "Yes", 1, 1, 0, 0⟩] : List PriceAlert),
      a.marketRef <
        ([mkMarket "t1" "c1" "q" "s" 0 ["Yes", "No"] [1, 2] 0] : List Market).length) ∧
    tokens_nodup [mkMarket "t1" "c1" "q" "s" 0 ["Yes", "No"] [1, 2] 0] ∧
    ∃ ms2,
      reset_baselines [⟨0, 0, "Yes", 1, 1, 0, 0⟩]
          [mkMarket "t1" "c1" "q" "s" 0 ["Yes", "No"] [1, 2] 0] = some ms2 ∧
      ms2.length = 1 := by
  have hnd : (List.map Market.token_id
      [mkMarket "t1" "c1" "q" "s" 0 ["Yes", "No"] [1, 2] 0]).Nodup := by decide
  refine ⟨by decide, hnd, ?_⟩
  obtain ⟨ms2, h1, h2, -⟩ :=
    reset_baselines_spec [⟨0, 0, "Yes", 1, 1, 0, 0⟩]
      [mkMarket "t1" "c1" "q" "s" 0 ["Yes", "No"] [1, 2] 0] (by decide) hnd
  exact ⟨ms2, h1, h2⟩

/-! ### Top movers: helper lemmas and claim C5 -/

theorem changes_le_bp (m : Market) :
    m.get_price_changes.length ≤ m.baseline_prices.length := by
  rw [get_price_changes_length]
  exact Nat.min_le_right _ _

theorem changes_le_op (m : Market) :
    m.get_price_changes.length ≤ m.outcome_prices.length := by
  rw [get_price_changes_length]
  exact Nat.min_le_left _ _

theorem mem_movers_spec_all {ms : List Market} {c : Mover}
    (hc : c ∈ movers_spec_all ms) :
    ∃ m, ms[c.ref]? = some m ∧ c.idx < m.outcomes.length ∧
      c.idx < m.get_price_changes.length ∧
      0 < m.baseline_prices.getD c.idx 0 ∧
      c.outcome = m.outcomes.getD c.idx "" ∧ c.change = change_at m c.idx := by
  obtain ⟨p, hp, hcp⟩ := List.mem_flatMap.mp hc
  rw [List.mem_enum_iff_getElem?] at hp
  obtain ⟨i, h1, h2, hpos, rfl⟩ := mem_movers_spec_one.mp hcp
  exact ⟨p.2, hp, h1, h2, hpos, rfl, rfl⟩

theorem movers_spec_all_mem {ms : List Market} {j : Nat} {m : Market} {i : Nat}
    (hm : ms[j]? = some m) (h1 : i < m.outcomes.length)
    (h2 : i < m.get_price_changes.length)
    (hpos : 0 < m.baseline_prices.getD i 0) :
    (⟨j, i, m.outcomes.getD i "", change_at m i⟩ : Mover) ∈ movers_spec_all ms :=
  List.mem_flatMap.mpr ⟨(j, m), List.mem_enum_iff_getElem?.mpr hm,
    mem_movers_spec_one.mpr ⟨i, h1, h2, hpos, rfl⟩⟩

theorem mover_alert_fields (ms : List Market) (now : Nat) (c : Mover) :
    (mover_alert ms now c).marketRef = c.ref ∧
    (mover_alert ms now c).outcome_index = c.idx ∧
    (mover_alert ms now c).change_percent = c.change := by
  cases hm : ms[c.ref]? <;> simp [mover_alert, hm]

/-- Shared closed form of `get_top_movers`: collect the positive-baseline
pool, stable-sort by descending absolute change, slice, build alerts. -/
theorem get_top_movers_eq (limit now : Nat) (st : PriceMonitor) :
    get_top_movers limit now st =
      some (((sort_desc (fun c => |c.change|) (movers_spec_all st.markets)).take
        limit).map (mover_alert st.markets now)) := by
  simp only [get_top_movers]
  rw [collect_all_movers_eq]
  show make_alerts now st.markets _ = _
  apply make_alerts_eq
  intro c hc
  have hsorted : c ∈ sort_desc (fun c => |c.change|) (movers_spec_all st.markets) :=
    List.Sublist.mem hc (List.take_sublist _ _)
  have hcand : c ∈ movers_spec_all st.markets :=
    (mem_sort_desc _ c _).mp hsorted
  obtain ⟨m, hm, _, h2, _, _, _⟩ := mem_movers_spec_all hcand
  exact ⟨m, hm, lt_of_lt_of_le h2 (changes_le_bp m),
    lt_of_lt_of_le h2 (changes_le_op m)⟩

/-- C5: `get_top_movers limit` never raises and returns at most `limit`
alerts, drawn from exactly the (market, outcome index) pairs with strictly
positive baseline — independently of the configured threshold (and volume
filter), however small the move; the result is sorted by descending
absolute change with ties kept in market-then-outcome enumeration order
(stable sort); and the call touches no engine state (its Lean type
returns no `PriceMonitor`, mirroring that the Python method writes no
attribute). -/
theorem get_top_movers_spec (limit now : Nat) (st : PriceMonitor) :
    ∃ L, get_top_movers limit now st = some L ∧
      L.length ≤ limit ∧
      (∀ thr mv : ℚ, get_top_movers limit now
        { st with threshold_percent := thr, min_volume := mv } =
          get_top_movers limit now st) ∧
      L.Pairwise (fun a b => |b.change_percent| ≤ |a.change_percent|) ∧
      L.Pairwise (fun a b => |a.change_percent| = |b.change_percent| → alertOrder a b) ∧
      (∀ a ∈ L, ∃ m, st.markets[a.marketRef]? = some m ∧
        a.outcome_index < m.outcomes.length ∧
        a.outcome_index < m.get_price_changes.length ∧
        0 < m.baseline_prices.getD a.outcome_index 0 ∧
        a.old_price = m.baseline_prices.getD a.outcome_index 0 ∧
        a.new_price = m.outcome_prices.getD a.outcome_index 0 ∧
        a.change_percent = change_at m a.outcome_index ∧
        a.outcome = m.outcomes.getD a.outcome_index "") ∧
      ((movers_spec_all st.markets).length ≤ limit →
        ∀ j m i, st.markets[j]? = some m → i < m.outcomes.length →
          i < m.get_price_changes.length → 0 < m.baseline_prices.getD i 0 →
          ∃ a ∈ L, a.marketRef = j ∧ a.outcome_index = i) := by
  refine ⟨_, get_top_movers_eq limit now st, ?_, fun thr mv => rfl, ?_, ?_, ?_, ?_⟩
  · rw [List.length_map, List.length_take]
    exact Nat.min_le_left _ _
  · refine List.pairwise_map.mpr ?_
    refine List.Pairwise.imp ?_
      ((pairwise_sort_desc (fun c => |c.change|) _).sublist (List.take_sublist _ _))
    intro c d h
    rw [(mover_alert_fields st.markets now c).2.2,
      (mover_alert_fields st.markets now d).2.2]
    exact h
  · have hpw : (movers_spec_all st.markets).Pairwise moverOrder :=
      pairwise_order_flatMap Mover.ref Mover.idx movers_spec_one
        (fun j m => movers_spec_one_refs.1) (fun j m => movers_spec_one_refs.2)
        st.markets 0
    have hstable := stable_sort_desc (fun c => |c.change|) moverOrder _
      (hpw.imp (fun h => fun _ => h))
    refine List.pairwise_map.mpr ?_
    refine List.Pairwise.imp ?_ (hstable.sublist (List.take_sublist _ _))
    intro c d h hkey
    rw [(mover_alert_fields st.markets now c).2.2,
      (mover_alert_fields st.markets now d).2.2] at hkey
    have hmo := h hkey
    rw [alertOrder, (mover_alert_fields st.markets now c).1,
      (mover_alert_fields st.markets now d).1,
      (mover_alert_fields st.markets now c).2.1,
      (mover_alert_fields st.markets now d).2.1]
    exact hmo
  · intro a ha
    obtain ⟨c, hc, rfl⟩ := List.mem_map.mp ha
    have hcand : c ∈ movers_spec_all st.markets :=
      (mem_sort_desc _ c _).mp (List.Sublist.mem hc (List.take_sublist _ _))
    obtain ⟨m, hm, h1, h2, hpos, hout, hchg⟩ := mem_movers_spec_all hcand
    have hma : mover_alert st.markets now c =
        ⟨c.ref, c.idx, c.outcome, m.baseline_prices.getD c.idx 0,
          m.outcome_prices.getD c.idx 0, c.change, now⟩ := by
      simp [mover_alert, hm]
    rw [hma]
    exact ⟨m, hm, h1, h2, hpos, rfl, rfl, hchg, hout⟩
  · intro hlim j m i hm h1 h2 hpos
    have htake : (sort_desc (fun c => |c.change|) (movers_spec_all st.markets)).take
        limit = sort_desc (fun c => |c.change|) (movers_spec_all st.markets) := by
      apply List.take_of_length_le
      rw [length_sort_desc]
      exact hlim
    have hcand := movers_spec_all_mem hm h1 h2 hpos
    have hsorted := (mem_sort_desc (fun c => |c.change|)
      (⟨j, i, m.outcomes.getD i "", change_at m i⟩ : Mover) _).mpr hcand
    refine ⟨mover_alert st.markets now ⟨j, i, m.outcomes.getD i "", change_at m i⟩,
      ?_, ?_, ?_⟩
    · apply List.mem_map_of_mem
      rw [htake]
      exact hsorted
    · exact (mover_alert_fields st.markets now _).1
    · exact (mover_alert_fields st.markets now _).2.1

/-! ### Mismatched-length safety: claim C6 -/

/-- The per-index value of `get_price_changes`, needing only that the index
is inside both price sequences (no condition on `outcomes`). -/
theorem change_at_char (m : Market) {i : Nat}
    (hop : i < m.outcome_prices.length) (hbp : i < m.baseline_prices.length) :
    m.get_price_changes[i]? =
      some (if 0 < m.baseline_prices.getD i 0 then
        ((m.outcome_prices.getD i 0 - m.baseline_prices.getD i 0) /
          m.baseline_prices.getD i 0) * 100
      else 0) := by
  have hzv : (m.outcome_prices.zip m.baseline_prices)[i]? =
      some (m.outcome_prices.getD i 0, m.baseline_prices.getD i 0) := by
    rw [List.getElem?_zip_eq_some]
    exact ⟨getElem?_eq_some_getD _ 0 hop, getElem?_eq_some_getD _ 0 hbp⟩
  rw [Market.get_price_changes, List.getElem?_map, hzv]
  rfl

/-- C6: with mismatched `outcomes` / `outcome_prices` / `baseline_prices`
lengths, every detection and ranking operation still completes without an
index error (no `none`, the model of an uncaught `IndexError`): change
computation stops at the shorter price sequence, alerts only arise at
indices inside all three sequences, and indices covered by both price
sequences are still evaluated by the usual formula. -/
theorem mismatched_lengths_safe (m : Market) (thr : ℚ) (now ref : Nat)
    (st : PriceMonitor) (fetch : String → Option (List ℚ)) (limit : Nat) :
    m.get_price_changes.length =
      min m.outcome_prices.length m.baseline_prices.length ∧
    (∃ as, check_market thr now ref m = some as ∧
      ∀ a ∈ as, a.outcome_index < m.outcomes.length ∧
        a.outcome_index < m.outcome_prices.length ∧
        a.outcome_index < m.baseline_prices.length) ∧
    (∃ out, check_for_alerts fetch now st = some out) ∧
    (∃ L, get_top_movers limit now st = some L) ∧
    (∀ i, i < m.outcome_prices.length → i < m.baseline_prices.length →
      (0 < m.baseline_prices.getD i 0 →
        m.get_price_changes[i]? =
          some (((m.outcome_prices.getD i 0 - m.baseline_prices.getD i 0) /
            m.baseline_prices.getD i 0) * 100)) ∧
      (m.baseline_prices.getD i 0 ≤ 0 → m.get_price_changes[i]? = some 0)) := by
  refine ⟨get_price_changes_length m, ?_, ?_, ?_, ?_⟩
  · refine ⟨check_market_spec thr now ref m, check_market_eq thr now ref m, ?_⟩
    intro a ha
    obtain ⟨i, h1, h2, -, rfl⟩ := mem_check_market_spec.mp ha
    exact ⟨h1, lt_of_lt_of_le h2 (changes_le_op m), lt_of_lt_of_le h2 (changes_le_bp m)⟩
  · cases hb : st.initialized
    · exact ⟨([], true, st), check_for_alerts_uninit_eq fetch now st hb⟩
    · exact ⟨_, check_for_alerts_init_eq fetch now st hb⟩
  · exact ⟨_, get_top_movers_eq limit now st⟩
  · intro i hop hbp
    have hchar := change_at_char m hop hbp
    constructor
    · intro hpos
      rw [hchar, if_pos hpos]
    · intro hnonpos
      rw [hchar, if_neg (not_lt.mpr hnonpos)]

/-- Witness for C6 on a market whose three sequences have lengths
2, 1 and 1 (mismatched upstream data). -/
theorem mismatched_lengths_safe_witness :
    (mkMarket "t" "c" "q" "s" 1 ["Yes", "No"] [1] 0).get_price_changes.length =
      min (mkMarket "t" "c" "q" "s" 1 ["Yes", "No"] [1] 0).outcome_prices.length
        (mkMarket "t" "c" "q" "s" 1 ["Yes", "No"] [1] 0).baseline_prices.length ∧
    ∃ as, check_market 3 0 0 (mkMarket "t" "c" "q" "s" 1 ["Yes", "No"] [1] 0) =
      some as := by
  obtain ⟨h1, ⟨as, h2, -⟩, -, -, -⟩ :=
    mismatched_lengths_safe (mkMarket "t" "c" "q" "s" 1 ["Yes", "No"] [1] 0) 3 0 0
      (PriceMonitor.mk0 3 0) (fun _ => none) 10
  exact ⟨h1, as, h2⟩

/-! ### The length invariant: claim C7 (corrected) -/

/-- Counterexample to C7 as stated: `Market` construction never checks that
`outcomes` and `outcome_prices` have equal length (parser-reachable, since
`_parse_market` reads the two fields independently), and `update_prices`
(as invoked by the engine's refresh with upstream data of arbitrary shape)
replaces `outcome_prices` wholesale with no length check, breaking the
equality with `baseline_prices`. -/
theorem market_length_invariant_cex :
    ¬ ((mkMarket "t" "c" "q" "s" 1 ["Yes", "No"] [1] 0).outcomes.length =
        (mkMarket "t" "c" "q" "s" 1 ["Yes", "No"] [1] 0).outcome_prices.length) ∧
    ((mkMarket "t" "c" "q" "s" 1 ["Yes", "No"] [1, 1] 0).update_prices [1]
        1).outcome_prices.length ≠
      ((mkMarket "t" "c" "q" "s" 1 ["Yes", "No"] [1, 1] 0).update_prices [1]
        1).baseline_prices.length := by
  constructor <;> decide

/-- C7 amended: after parser-style construction (no baseline supplied),
`len(outcome_prices) = len(baseline_prices)` holds and `outcome_prices` is
the parsed list, but `len(outcomes)` is unconstrained; `reset_baseline`
(re-)establishes the two-price-sequence equality unconditionally;
`update_prices` and the engine's price refresh preserve it exactly when
the incoming price lists match the baseline length. -/
theorem market_length_invariant_amended :
    (∀ (tid cid q s : String) (v : ℚ) (os : List String) (ops : List ℚ) (now : Nat),
      (mkMarket tid cid q s v os ops now).outcome_prices.length =
        (mkMarket tid cid q s v os ops now).baseline_prices.length ∧
      (mkMarket tid cid q s v os ops now).outcome_prices = ops) ∧
    (∀ m : Market, m.reset_baseline.outcome_prices.length =
      m.reset_baseline.baseline_prices.length) ∧
    (∀ (m : Market) (ps : List ℚ) (now : Nat),
      ps.length = m.baseline_prices.length →
      (m.update_prices ps now).outcome_prices.length =
        (m.update_prices ps now).baseline_prices.length) ∧
    (∀ (fetch : String → Option (List ℚ)) (now : Nat) (ms : List Market),
      (∀ m ∈ ms, ∀ ps, fetch m.slug = some ps → ps ≠ [] →
        ps.length = m.baseline_prices.length) →
      (∀ m ∈ ms, m.outcome_prices.length = m.baseline_prices.length) →
      ∀ m2 ∈ (refresh_market_prices fetch now ms).1,
        m2.outcome_prices.length = m2.baseline_prices.length) := by
  refine ⟨?_, fun m => rfl, fun m ps now h => h, ?_⟩
  · intro tid cid q s v os ops now
    constructor <;> simp [mkMarket, postInit]
  · intro fetch now ms hfetch hms m2 hm2
    rw [refresh_market_prices_markets] at hm2
    obtain ⟨m, hm, rfl⟩ := List.mem_map.mp hm2
    rw [refresh_one]
    cases hf : fetch m.slug with
    | none => exact hms m hm
    | some ps =>
      dsimp only
      by_cases hps : ps = []
      · rw [if_pos hps]
        exact hms m hm
      · rw [if_neg hps]
        exact hfetch m hm ps hf hps

/-- Witness for C7's amended statement at concrete markets. -/
theorem market_length_invariant_amended_witness :
    (mkMarket "t" "c" "q" "s" 1 ["Yes", "No"] [1, 2] 0).outcome_prices.length =
      (mkMarket "t" "c" "q" "s" 1 ["Yes", "No"] [1, 2] 0).baseline_prices.length ∧
    ((mkMarket "t" "c" "q" "s" 1 ["Yes", "No"] [1, 2] 0).update_prices [3, 4]
        1).outcome_prices.length =
      ((mkMarket "t" "c" "q" "s" 1 ["Yes", "No"] [1, 2] 0).update_prices [3, 4]
        1).baseline_prices.length :=
  ⟨(market_length_invariant_amended.1 "t" "c" "q" "s" 1 ["Yes", "No"] [1, 2] 0).1,
    market_length_invariant_amended.2.2.1
      (mkMarket "t" "c" "q" "s" 1 ["Yes", "No"] [1, 2] 0) [3, 4] 1 (by decide)⟩

/-! ### Bulk reload: claims C9 (corrected) and C10 -/

/-- Counterexample to C9 as stated: on a fresh engine and the same (empty)
fetch result, `initialize` and `refresh_markets` do not have the same
effect on the engine — `initialize` sets the `initialized` flag and the
scan timestamp, `refresh_markets` does not, and the resulting states
differ. -/
theorem refresh_markets_init_differ :
    (PriceMonitor.init [] 5 (PriceMonitor.mk0 3 0)).2.initialized = true ∧
    (refresh_markets [] (PriceMonitor.mk0 3 0)).2.initialized = false ∧
    (PriceMonitor.init [] 5 (PriceMonitor.mk0 3 0)).2 ≠
      (refresh_markets [] (PriceMonitor.mk0 3 0)).2 := by
  refine ⟨rfl, rfl, ?_⟩
  intro h
  exact absurd (congrArg PriceMonitor.initialized h) (by decide)

/-- C9 amended: given the same fetched market list, `refresh_markets` and
`initialize` replace the market set identically (wholesale, dropping
everything previously held) and return the same value, the new total
count; but only `initialize` sets the `initialized` flag and
`last_scan_time` — `refresh_markets` leaves both unchanged. -/
theorem refresh_markets_vs_init (fetched : List Market) (now : Nat)
    (st : PriceMonitor) :
    (refresh_markets fetched st).1 = (PriceMonitor.init fetched now st).1 ∧
    (refresh_markets fetched st).1 = fetched.length ∧
    (refresh_markets fetched st).2.markets = fetched ∧
    (PriceMonitor.init fetched now st).2.markets = fetched ∧
    (refresh_markets fetched st).2.markets =
      (PriceMonitor.init fetched now st).2.markets ∧
    (refresh_markets fetched st).2.initialized = st.initialized ∧
    (refresh_markets fetched st).2.last_scan_time = st.last_scan_time ∧
    (PriceMonitor.init fetched now st).2.initialized = true ∧
    (PriceMonitor.init fetched now st).2.last_scan_time = some now ∧
    (refresh_markets fetched st).2.threshold_percent = st.threshold_percent ∧
    (PriceMonitor.init fetched now st).2.threshold_percent = st.threshold_percent :=
  ⟨rfl, rfl, rfl, rfl, rfl, rfl, rfl, rfl, rfl, rfl, rfl⟩

end PriceAlertModel
